import Mathlib

/-!
Verification of the snowball-fight team-inference program (`snowball_plot.py`).

The embedding models the core of the program:

* `infer_teams` — the fixpoint label-propagation routine.  The Python code
  loops `while changed`; here the loop is given explicit fuel, and the
  termination theorem shows that fuel equal to the participant count
  suffices.
* the per-participant statistics built in `main` (via `value_counts`,
  outer `concat` with `fillna(0)`, and the `Team != "Unknown"` filter)
  are modelled by `report`.

Participant names are `String`s (already whitespace-normalized, as done by
`normalize_user` at the I/O boundary).  The `current_teams` dictionary is
modelled as an association list whose lookup finds the first matching key;
since keys are only ever inserted when absent, keys stay distinct, exactly
as in a Python `dict`.  The interaction table `df` is modelled as the list
of its `(Attacker, Victim)` rows, in order.
-/

namespace Snowball

/-- The two team tags used by the program: `"Reindeer"` and `"Penguin"`.
In the spec's terms, FactionA is `Reindeer` and FactionB is `Penguin`. -/
inductive Faction where
  | Reindeer : Faction
  | Penguin : Faction
deriving DecidableEq, Repr

/-- `target = "Penguin" if team == "Reindeer" else "Reindeer"`. -/
def opposite : Faction → Faction
  | .Reindeer => .Penguin
  | .Penguin => .Reindeer

/-- One row of the interaction table: `(Attacker, Victim)`. -/
abbrev Interaction := String × String

/-- The `current_teams` dictionary: a partial map from participant to
faction, modelled as an association list (first match wins on lookup;
insertion appends, and only ever happens for absent keys). -/
abbrev Teams := List (String × Faction)

/-- Dictionary lookup: `current_teams[u]` / `u in current_teams`. -/
def getTeam : Teams → String → Option Faction
  | [], _ => none
  | (v, f) :: rest, u => if v = u then some f else getTeam rest u

/-- Dictionary insertion `current_teams[u] = f` (only called on absent keys). -/
def setTeam (t : Teams) (u : String) (f : Faction) : Teams :=
  t ++ [(u, f)]

/-- The evidence signal one interaction row produces, given the label state:
`some (target, faction)` means one vote for `target` toward `faction`.
This is the body of the evidence-collection loop of `infer_teams`:
if the attacker's team is known and the victim's is not, the victim gets a
vote toward the opposite of the attacker's team, and vice versa; otherwise
the row contributes nothing. -/
def voteOf (t : Teams) (row : Interaction) : Option (String × Faction) :=
  match getTeam t row.1, getTeam t row.2 with
  | some attTeam, none => some (row.2, opposite attTeam)
  | none, some vicTeam => some (row.1, opposite vicTeam)
  | _, _ => none

/-- The per-pass `evidence` dictionary: participant ↦ (reindeer votes, penguin votes). -/
abbrev Evidence := List (String × Nat × Nat)

/-- Increment one component of a `(reindeerVotes, penguinVotes)` pair. -/
def bump (c : Nat × Nat) : Faction → Nat × Nat
  | .Reindeer => (c.1 + 1, c.2)
  | .Penguin => (c.1, c.2 + 1)

/-- `evidence.setdefault(u, {"Reindeer": 0, "Penguin": 0}); evidence[u][f] += 1`:
bump the entry for `u` in place, creating it (from zero counts) at the end
if absent. -/
def addVote : Evidence → String → Faction → Evidence
  | [], u, f => [(u, bump (0, 0) f)]
  | (v, c) :: rest, u, f =>
      if v = u then (v, bump c f) :: rest
      else (v, c) :: addVote rest u f

/-- One step of the evidence-collection sweep: process one row. -/
def evStep (t : Teams) (ev : Evidence) (row : Interaction) : Evidence :=
  match voteOf t row with
  | some (u, f) => addVote ev u f
  | none => ev

/-- The evidence-collection pass: sweep all rows once, building the
`evidence` dictionary from the label state `t` as it stood at the start of
the pass. -/
def collectEvidence (t : Teams) (rows : List Interaction) : Evidence :=
  rows.foldl (evStep t) []

/-- Lookup in the evidence dictionary. -/
def evLookup : Evidence → String → Option (Nat × Nat)
  | [], _ => none
  | (v, c) :: rest, u => if v = u then some c else evLookup rest u

/-- The chained conditionals of the commit step, for counts `(r, p)`:
dominance first (`r > p * 2 and r > 0`, then symmetrically), then
one-sidedness (`r > 0 and p == 0`, then symmetrically), else no commit. -/
def commitDecision (r p : Nat) : Option Faction :=
  if r > p * 2 ∧ r > 0 then some .Reindeer
  else if p > r * 2 ∧ p > 0 then some .Penguin
  else if r > 0 ∧ p = 0 then some .Reindeer
  else if p > 0 ∧ r = 0 then some .Penguin
  else none

/-- The commit loop `for user, counts in evidence.items()`: skip users
already in `current_teams`, otherwise apply `commitDecision` and, on a
commit, insert the label and set the `changed` flag. -/
def commitLoop : Evidence → Teams → Bool → Teams × Bool
  | [], cur, changed => (cur, changed)
  | (u, c) :: rest, cur, changed =>
      match getTeam cur u with
      | some _ => commitLoop rest cur changed
      | none =>
          match commitDecision c.1 c.2 with
          | some f => commitLoop rest (setTeam cur u f) true
          | none => commitLoop rest cur changed

/-- One full pass of the `while changed` loop body: collect evidence from
the snapshot `t`, then run the commit loop (starting with `changed = False`).
Returns the updated label state and the `changed` flag. -/
def runPass (t : Teams) (rows : List Interaction) : Teams × Bool :=
  commitLoop (collectEvidence t rows) t false

/-- The `while changed` fixpoint loop of `infer_teams`, with explicit fuel:
run passes while they report a change, for at most `fuel` passes.  The
termination theorem shows that fuel equal to the participant count already
reaches the fixpoint, so the fuel is not a semantic restriction. -/
def infer_teams : Nat → List Interaction → Teams → Teams
  | 0, _, t => t
  | fuel + 1, rows, t =>
      if (runPass t rows).2 then infer_teams fuel rows (runPass t rows).1
      else (runPass t rows).1

/-- The label state after exactly `k` passes (whether or not they changed
anything; a pass after the fixpoint leaves the state unchanged). -/
def passIter (rows : List Interaction) (seed : Teams) (k : Nat) : Teams :=
  (fun s => (runPass s rows).1)^[k] seed

/-- The number of votes toward faction `f` that participant `u` receives in
one evidence-collection pass over `rows` from label state `t`: one per
contributing interaction row. -/
def tallyCount (t : Teams) (rows : List Interaction) (u : String) (f : Faction) : Nat :=
  match rows with
  | [] => 0
  | row :: rest => (if voteOf t row = some (u, f) then 1 else 0) + tallyCount t rest u f

/-- First-occurrence deduplication (the order a pandas index union keeps is
irrelevant to the content theorems; this keeps each user once). -/
def dedupFirstAux : List String → List String → List String
  | [], _ => []
  | x :: xs, seen =>
      if x ∈ seen then dedupFirstAux xs seen else x :: dedupFirstAux xs (x :: seen)

/-- Each distinct element of a list, once. -/
def dedupFirst (l : List String) : List String :=
  dedupFirstAux l []

/-- The users appearing in the statistics index: everyone occurring as
attacker or victim in at least one row (the union of the two
`value_counts` indices). -/
def userList (rows : List Interaction) : List String :=
  dedupFirst (rows.map Prod.fst ++ rows.map Prod.snd)

/-- `df["Attacker"].value_counts()[u]` (0 when absent, as `fillna(0)` does). -/
def outCount : List Interaction → String → Nat
  | [], _ => 0
  | row :: rest, u => (if row.1 = u then 1 else 0) + outCount rest u

/-- `df["Victim"].value_counts()[u]` (0 when absent, as `fillna(0)` does). -/
def inCount : List Interaction → String → Nat
  | [], _ => 0
  | row :: rest, u => (if row.2 = u then 1 else 0) + inCount rest u

/-- One row of the final statistics table. -/
structure ReportRow where
  id : String
  outgoing : Nat
  incoming : Nat
  faction : Faction
deriving DecidableEq, Repr

/-- The statistics table built from the interaction rows and the finalized
label state: one row per user appearing in some interaction, with made and
received counts, keeping only users whose team resolved (the
`Team != "Unknown"` filter). -/
def report (rows : List Interaction) (t : Teams) : List ReportRow :=
  (userList rows).filterMap fun u =>
    (getTeam t u).map fun f => ⟨u, outCount rows u, inCount rows u, f⟩

/-- All participants of the run: everyone appearing in some interaction row. -/
def rowParticipants (rows : List Interaction) : Finset String :=
  rows.foldr (fun row s => insert row.1 (insert row.2 s)) ∅

/-- The participant count `P`: participants of the interaction rows
together with the seeded participants. -/
def numParticipants (rows : List Interaction) (seed : Teams) : Nat :=
  (rowParticipants rows ∪ (seed.map Prod.fst).toFinset).card

/-- Extending an optional `(r, p)` count pair by `r` extra reindeer votes
and `p` extra penguin votes, creating the pair if any vote arrives. -/
def tallyAdd (o : Option (Nat × Nat)) (r p : Nat) : Option (Nat × Nat) :=
  match o with
  | some c => some (c.1 + r, c.2 + p)
  | none => if r = 0 ∧ p = 0 then none else some (r, p)


/-- Modelled from the spec: "Commit all participants that matched in this
pass simultaneously … all commits from one pass are based on the same
evidence snapshot."  Collect the evidence from the snapshot `t`, then
append, all at once, a label for every entry whose tally matches the
commit rule. -/
def simulPass (t : Teams) (rows : List Interaction) : Teams :=
  t ++ (collectEvidence t rows).filterMap fun e =>
    (commitDecision e.2.1 e.2.2).map fun f => (e.1, f)


/-- The commit step with only the two dominance branches. -/
def commitDecisionDom (r p : Nat) : Option Faction :=
  if r > p * 2 ∧ r > 0 then some .Reindeer
  else if p > r * 2 ∧ p > 0 then some .Penguin
  else none

/-- The commit loop using only the dominance branches. -/
def commitLoopDom : Evidence → Teams → Bool → Teams × Bool
  | [], cur, changed => (cur, changed)
  | (u, c) :: rest, cur, changed =>
      match getTeam cur u with
      | some _ => commitLoopDom rest cur changed
      | none =>
          match commitDecisionDom c.1 c.2 with
          | some f => commitLoopDom rest (setTeam cur u f) true
          | none => commitLoopDom rest cur changed

/-- One pass using only the dominance branches. -/
def runPassDom (t : Teams) (rows : List Interaction) : Teams × Bool :=
  commitLoopDom (collectEvidence t rows) t false

/-- The fixpoint loop using only the dominance branches. -/
def infer_teamsDom : Nat → List Interaction → Teams → Teams
  | 0, _, t => t
  | fuel + 1, rows, t =>
      if (runPassDom t rows).2 then infer_teamsDom fuel rows (runPassDom t rows).1
      else (runPassDom t rows).1


/-- The ambiguous band of the conservatism property: a tied tally
(`r = p`, both positive) or comparable, non-dominant counts on both sides
(`p ≤ r ≤ 2*p` with both positive, or symmetrically). -/
def inBand (r p : Nat) : Prop :=
  (r = p ∧ 0 < r) ∨ (p ≤ r ∧ r ≤ 2 * p ∧ 0 < p ∧ 0 < r) ∨
    (r ≤ p ∧ p ≤ 2 * r ∧ 0 < r ∧ 0 < p)

instance (r p : Nat) : Decidable (inBand r p) := by
  unfold inBand
  infer_instance

/-- The tied end-to-end scenario of the spec: `X` and `Z` snowball each
other twice, with `Z` in between. -/
def demoRows : List Interaction := [("X", "Z"), ("Z", "Y"), ("X", "Z"), ("Z", "Y")]

/-- Seeds for the tied scenario. -/
def demoSeed : Teams := [("X", Faction.Reindeer), ("Y", Faction.Penguin)]

/-- The one-sided scenario of the spec: `X` snowballs `Z` three times. -/
def oneRows : List Interaction := [("X", "Z"), ("X", "Z"), ("X", "Z")]

/-- Seeds for the one-sided scenario. -/
def oneSeed : Teams := [("X", Faction.Reindeer)]

/-- A single interaction not involving the seeded participant. -/
def abRows : List Interaction := [("a", "b")]

/-- A seed labeling a participant that appears in no interaction. -/
def zSeed : Teams := [("z", Faction.Reindeer)]

/-- A seed labeling the victim of the single `abRows` interaction. -/
def bSeed : Teams := [("b", Faction.Penguin)]

/-! ### Lookup and insertion lemmas -/

theorem getTeam_append_of_some {t₁ : Teams} {u : String} {f : Faction}
    (t₂ : Teams) (h : getTeam t₁ u = some f) :
    getTeam (t₁ ++ t₂) u = some f := by
  induction t₁ with
  | nil => simp [getTeam] at h
  | cons kv rest ih =>
      obtain ⟨v, g⟩ := kv
      by_cases hvu : v = u <;> simp_all [getTeam]

theorem getTeam_append_of_none {t₁ : Teams} {u : String}
    (t₂ : Teams) (h : getTeam t₁ u = none) :
    getTeam (t₁ ++ t₂) u = getTeam t₂ u := by
  induction t₁ with
  | nil => simp [getTeam]
  | cons kv rest ih =>
      obtain ⟨v, g⟩ := kv
      by_cases hvu : v = u <;> simp_all [getTeam]

theorem getTeam_setTeam_of_some {t : Teams} {u : String} {g : Faction}
    (v : String) (f : Faction) (h : getTeam t u = some g) :
    getTeam (setTeam t v f) u = some g :=
  getTeam_append_of_some _ h

theorem getTeam_setTeam_of_none {t : Teams} {u : String}
    (v : String) (f : Faction) (h : getTeam t u = none) :
    getTeam (setTeam t v f) u = if v = u then some f else none := by
  rw [setTeam, getTeam_append_of_none _ h]
  by_cases hvu : v = u <;> simp [getTeam, hvu]

theorem getTeam_none_iff (t : Teams) (u : String) :
    getTeam t u = none ↔ u ∉ t.map Prod.fst := by
  induction t with
  | nil => simp [getTeam]
  | cons kv rest ih =>
      obtain ⟨v, g⟩ := kv
      by_cases hvu : v = u
      · subst hvu; simp [getTeam]
      · have huv : ¬ u = v := fun h => hvu h.symm
        simp [getTeam, hvu, huv, ih]

theorem evLookup_none_iff (ev : Evidence) (u : String) :
    evLookup ev u = none ↔ u ∉ ev.map Prod.fst := by
  induction ev with
  | nil => simp [evLookup]
  | cons e rest ih =>
      obtain ⟨v, c⟩ := e
      by_cases hvu : v = u
      · subst hvu; simp [evLookup]
      · have huv : ¬ u = v := fun h => hvu h.symm
        simp [evLookup, hvu, huv, ih]

theorem evLookup_addVote (ev : Evidence) (v : String) (g : Faction) (u : String) :
    evLookup (addVote ev v g) u =
      if v = u then some (bump ((evLookup ev v).getD (0, 0)) g)
      else evLookup ev u := by
  induction ev with
  | nil => by_cases hvu : v = u <;> simp [addVote, evLookup, hvu]
  | cons e rest ih =>
      obtain ⟨w, c⟩ := e
      by_cases hwv : w = v
      · subst hwv
        by_cases hwu : w = u <;> simp [addVote, evLookup, hwu]
      · by_cases hwu : w = u
        · have hvu : ¬ v = u := fun h => hwv (hwu.trans h.symm)
          have huv : ¬ u = v := fun h => hvu h.symm
          simp [addVote, evLookup, hwv, hwu, hvu, huv]
        · simp [addVote, evLookup, hwv, hwu, ih]

theorem addVote_keys (ev : Evidence) (v : String) (g : Faction) :
    (addVote ev v g).map Prod.fst =
      if v ∈ ev.map Prod.fst then ev.map Prod.fst
      else ev.map Prod.fst ++ [v] := by
  induction ev with
  | nil => simp [addVote]
  | cons e rest ih =>
      obtain ⟨w, c⟩ := e
      by_cases hwv : w = v
      · subst hwv; simp [addVote]
      · have hvw : ¬ v = w := fun h => hwv h.symm
        by_cases hv : v ∈ rest.map Prod.fst <;> simp [addVote, hwv, hvw, hv, ih]

theorem addVote_keys_nodup {ev : Evidence} (v : String) (g : Faction)
    (h : (ev.map Prod.fst).Nodup) : ((addVote ev v g).map Prod.fst).Nodup := by
  rw [addVote_keys]
  by_cases hv : v ∈ ev.map Prod.fst <;> simp [hv, List.nodup_append, h]

/-! ### The evidence-collection pass computes the vote tallies -/

theorem evLookup_foldl (t : Teams) (rows : List Interaction) :
    ∀ (ev : Evidence) (u : String),
      evLookup (rows.foldl (evStep t) ev) u =
        tallyAdd (evLookup ev u)
          (tallyCount t rows u .Reindeer) (tallyCount t rows u .Penguin) := by
  induction rows with
  | nil =>
      intro ev u
      cases h : evLookup ev u <;> simp [tallyAdd, tallyCount, h]
  | cons row rest ih =>
      intro ev u
      rw [List.foldl_cons, ih]
      rcases hv : voteOf t row with _ | ⟨v, g⟩
      · have hr : ¬ voteOf t row = some (u, Faction.Reindeer) := by simp [hv]
        have hp : ¬ voteOf t row = some (u, Faction.Penguin) := by simp [hv]
        simp [evStep, hv, tallyCount, hr, hp]
      · by_cases hvu : v = u
        · subst hvu
          cases g
          · have hr : voteOf t row = some (v, Faction.Reindeer) := hv
            have hp : ¬ voteOf t row = some (v, Faction.Penguin) := by simp [hv]
            rw [evStep, hv, evLookup_addVote]
            simp only [if_pos rfl, tallyCount, hr, hp, if_pos, if_neg]
            cases ho : evLookup ev v <;>
              simp [tallyAdd, bump, ho, Nat.add_comm, Nat.add_assoc, Nat.add_left_comm]
          · have hr : ¬ voteOf t row = some (v, Faction.Reindeer) := by simp [hv]
            have hp : voteOf t row = some (v, Faction.Penguin) := hv
            rw [evStep, hv, evLookup_addVote]
            simp only [if_pos rfl, tallyCount, hr, hp, if_pos, if_neg]
            cases ho : evLookup ev v <;>
              simp [tallyAdd, bump, ho, Nat.add_comm, Nat.add_assoc, Nat.add_left_comm]
        · have hr : ¬ voteOf t row = some (u, Faction.Reindeer) := by
            simp [hv]; intro h; exact absurd h hvu
          have hp : ¬ voteOf t row = some (u, Faction.Penguin) := by
            simp [hv]; intro h; exact absurd h hvu
          rw [evStep, hv, evLookup_addVote, if_neg hvu]
          simp [tallyCount, hr, hp]

theorem evLookup_collectEvidence (t : Teams) (rows : List Interaction) (u : String) :
    evLookup (collectEvidence t rows) u =
      if tallyCount t rows u .Reindeer = 0 ∧ tallyCount t rows u .Penguin = 0 then none
      else some (tallyCount t rows u .Reindeer, tallyCount t rows u .Penguin) := by
  rw [collectEvidence, evLookup_foldl]
  rfl

theorem voteOf_target {t : Teams} {row : Interaction} {u : String} {g : Faction}
    (h : voteOf t row = some (u, g)) :
    (u = row.1 ∨ u = row.2) ∧ getTeam t u = none := by
  unfold voteOf at h
  rcases h1 : getTeam t row.1 with _ | f1 <;> rcases h2 : getTeam t row.2 with _ | f2 <;>
    rw [h1, h2] at h <;> simp at h
  · exact ⟨Or.inl h.1.symm, h.1 ▸ h1⟩
  · exact ⟨Or.inr h.1.symm, h.1 ▸ h2⟩

theorem keys_foldl_origin (t : Teams) (rows : List Interaction) :
    ∀ (ev : Evidence) (u : String),
      u ∈ (rows.foldl (evStep t) ev).map Prod.fst →
      u ∈ ev.map Prod.fst ∨ ∃ row ∈ rows, ∃ g, voteOf t row = some (u, g) := by
  induction rows with
  | nil => intro ev u h; exact Or.inl h
  | cons row rest ih =>
      intro ev u h
      rw [List.foldl_cons] at h
      rcases ih (evStep t ev row) u h with h' | ⟨row', hrow', g, hg⟩
      · rcases hv : voteOf t row with _ | ⟨v, g⟩
        · rw [evStep, hv] at h'; exact Or.inl h'
        · rw [evStep, hv, addVote_keys] at h'
          by_cases hvk : v ∈ ev.map Prod.fst
          · rw [if_pos hvk] at h'; exact Or.inl h'
          · rw [if_neg hvk] at h'
            rcases List.mem_append.1 h' with h'' | h''
            · exact Or.inl h''
            · refine Or.inr ⟨row, List.mem_cons_self _ _, g, ?_⟩
              rw [hv]; simp at h''; rw [h'']
      · exact Or.inr ⟨row', List.mem_cons_of_mem _ hrow', g, hg⟩

theorem keys_foldl_nodup (t : Teams) (rows : List Interaction) :
    ∀ ev : Evidence, (ev.map Prod.fst).Nodup →
      ((rows.foldl (evStep t) ev).map Prod.fst).Nodup := by
  induction rows with
  | nil => intro ev h; exact h
  | cons row rest ih =>
      intro ev h
      rw [List.foldl_cons]
      refine ih _ ?_
      rcases hv : voteOf t row with _ | ⟨v, g⟩
      · rw [evStep, hv]; exact h
      · rw [evStep, hv]; exact addVote_keys_nodup v g h

theorem collectEvidence_keys_nodup (t : Teams) (rows : List Interaction) :
    ((collectEvidence t rows).map Prod.fst).Nodup :=
  keys_foldl_nodup t rows [] (by simp)

theorem collectEvidence_keys_unlabeled (t : Teams) (rows : List Interaction)
    (u : String) (h : u ∈ (collectEvidence t rows).map Prod.fst) :
    getTeam t u = none := by
  rcases keys_foldl_origin t rows [] u h with h' | ⟨row, _, g, hg⟩
  · simp at h'
  · exact (voteOf_target hg).2

/-! ### The commit loop, pointwise -/

theorem commitLoop_mono {entries : Evidence} {cur : Teams} {b : Bool}
    {u : String} {f : Faction} (h : getTeam cur u = some f) :
    getTeam (commitLoop entries cur b).1 u = some f := by
  induction entries generalizing cur b with
  | nil => exact h
  | cons e rest ih =>
      obtain ⟨v, c⟩ := e
      rw [commitLoop]
      rcases hv : getTeam cur v with _ | fv
      · rcases hd : commitDecision c.1 c.2 with _ | fd
        · exact ih h
        · exact ih (getTeam_setTeam_of_some v fd h)
      · exact ih h

/-- What the sequential commit loop does to each participant, provided the
pending entries have distinct keys all unlabeled in the current state: a
participant already labeled keeps its label, and an unlabeled participant
gets exactly the decision taken on its own entry's counts (or stays
unlabeled if it has no entry). -/
theorem commitLoop_getTeam {entries : Evidence} {cur : Teams} {b : Bool}
    (h1 : (entries.map Prod.fst).Nodup)
    (h2 : ∀ e ∈ entries, getTeam cur e.1 = none) (u : String) :
    getTeam (commitLoop entries cur b).1 u =
      match getTeam cur u with
      | some f => some f
      | none =>
          match evLookup entries u with
          | some c => commitDecision c.1 c.2
          | none => none := by
  induction entries generalizing cur b with
  | nil =>
      rcases hc : getTeam cur u with _ | f <;> simp [commitLoop, evLookup, hc]
  | cons e rest ih =>
      obtain ⟨v, c⟩ := e
      have hvnone : getTeam cur v = none := h2 (v, c) (List.mem_cons_self _ _)
      have h1' : (rest.map Prod.fst).Nodup := (List.nodup_cons.1 h1).2
      have hvrest : v ∉ rest.map Prod.fst := (List.nodup_cons.1 h1).1
      rw [commitLoop, hvnone]
      rcases hd : commitDecision c.1 c.2 with _ | fd
      · have h2' : ∀ e ∈ rest, getTeam cur e.1 = none :=
          fun e he => h2 e (List.mem_cons_of_mem _ he)
        rw [ih h1' h2']
        by_cases hvu : v = u
        · subst hvu
          have : evLookup rest v = none := (evLookup_none_iff rest v).2 hvrest
          simp [hvnone, evLookup, this, hd]
        · simp [evLookup, hvu]
      · have h2' : ∀ e ∈ rest, getTeam (setTeam cur v fd) e.1 = none := by
          intro e he
          have hne : getTeam cur e.1 = none := h2 e (List.mem_cons_of_mem _ he)
          rw [getTeam_setTeam_of_none v fd hne, if_neg]
          intro hveq
          exact hvrest (hveq ▸ List.mem_map_of_mem Prod.fst he)
        rw [ih h1' h2']
        by_cases hvu : v = u
        · subst hvu
          have hset : getTeam (setTeam cur v fd) v = some fd := by
            rw [getTeam_setTeam_of_none v fd hvnone, if_pos rfl]
          simp [hset, evLookup, hd, hvnone]
        · have hset : getTeam (setTeam cur v fd) u =
              match getTeam cur u with
              | some f => some f
              | none => none := by
            rcases hc : getTeam cur u with _ | f
            · rw [getTeam_setTeam_of_none v fd hc, if_neg hvu]
            · exact getTeam_setTeam_of_some v fd hc
          rcases hc : getTeam cur u with _ | f <;>
            rw [hc] at hset <;> simp [hset, evLookup, hvu, hc]

/-- What one full pass does to each participant: labeled participants keep
their label, and an unlabeled participant gets exactly the decision on its
vote tally computed from the snapshot at the start of the pass. -/
theorem runPass_getTeam (t : Teams) (rows : List Interaction) (u : String) :
    getTeam (runPass t rows).1 u =
      match getTeam t u with
      | some f => some f
      | none =>
          commitDecision (tallyCount t rows u .Reindeer)
            (tallyCount t rows u .Penguin) := by
  rw [runPass, commitLoop_getTeam (collectEvidence_keys_nodup t rows)
    (fun e he => collectEvidence_keys_unlabeled t rows e.1
      (List.mem_map_of_mem Prod.fst he))]
  rcases hc : getTeam t u with _ | f
  · rw [evLookup_collectEvidence]
    by_cases hz : tallyCount t rows u .Reindeer = 0 ∧ tallyCount t rows u .Penguin = 0
    · rw [if_pos hz, hz.1, hz.2]; rfl
    · rw [if_neg hz]
  · rfl

theorem commitDecision_reindeer_iff (r p : Nat) :
    commitDecision r p = some .Reindeer ↔ r > p * 2 ∧ r > 0 := by
  unfold commitDecision
  split_ifs with h1 h2 h3 h4 <;> simp_all <;> omega

theorem commitDecision_penguin_iff (r p : Nat) :
    commitDecision r p = some .Penguin ↔ p > r * 2 ∧ p > 0 := by
  unfold commitDecision
  split_ifs with h1 h2 h3 h4 <;> simp_all <;> omega

theorem runPass_mono {t : Teams} {u : String} {f : Faction}
    (rows : List Interaction) (h : getTeam t u = some f) :
    getTeam (runPass t rows).1 u = some f :=
  commitLoop_mono h

/-! ### The changed flag -/

theorem commitLoop_fst_of_not_changed {entries : Evidence} {cur : Teams} {b : Bool}
    (h : (commitLoop entries cur b).2 = false) :
    (commitLoop entries cur b).1 = cur ∧ b = false := by
  induction entries generalizing cur b with
  | nil => exact ⟨rfl, h⟩
  | cons e rest ih =>
      obtain ⟨v, c⟩ := e
      rw [commitLoop] at h ⊢
      rcases hv : getTeam cur v with _ | fv
      · simp only [hv] at h ⊢
        rcases hd : commitDecision c.1 c.2 with _ | fd
        · simp only [hd] at h ⊢
          exact ih h
        · simp only [hd] at h ⊢
          exact absurd (ih h).2 (by simp)
      · simp only [hv] at h ⊢
        exact ih h

theorem commitLoop_changed_new {entries : Evidence} {cur : Teams} {b : Bool}
    (h : (commitLoop entries cur b).2 = true) :
    b = true ∨ ∃ u ∈ entries.map Prod.fst,
      getTeam cur u = none ∧ getTeam (commitLoop entries cur b).1 u ≠ none := by
  induction entries generalizing cur b with
  | nil => exact Or.inl h
  | cons e rest ih =>
      obtain ⟨v, c⟩ := e
      rw [commitLoop] at h ⊢
      rcases hv : getTeam cur v with _ | fv
      · simp only [hv] at h ⊢
        rcases hd : commitDecision c.1 c.2 with _ | fd
        · simp only [hd] at h ⊢
          rcases ih h with hb | ⟨u, hu, h1, h2⟩
          · exact Or.inl hb
          · exact Or.inr ⟨u, List.mem_cons_of_mem _ hu, h1, h2⟩
        · simp only [hd] at h ⊢
          refine Or.inr ⟨v, List.mem_cons_self _ _, hv, ?_⟩
          have hset : getTeam (setTeam cur v fd) v = some fd := by
            rw [getTeam_setTeam_of_none v fd hv, if_pos rfl]
          rw [commitLoop_mono hset]
          simp
      · simp only [hv] at h ⊢
        rcases ih h with hb | ⟨u, hu, h1, h2⟩
        · exact Or.inl hb
        · exact Or.inr ⟨u, List.mem_cons_of_mem _ hu, h1, h2⟩

theorem runPass_fst_of_not_changed {t : Teams} {rows : List Interaction}
    (h : (runPass t rows).2 = false) : (runPass t rows).1 = t :=
  (commitLoop_fst_of_not_changed h).1

theorem rowParticipants_cons (row : Interaction) (rows : List Interaction) :
    rowParticipants (row :: rows) =
      insert row.1 (insert row.2 (rowParticipants rows)) := rfl

theorem mem_rowParticipants {row : Interaction} {rows : List Interaction}
    (h : row ∈ rows) :
    row.1 ∈ rowParticipants rows ∧ row.2 ∈ rowParticipants rows := by
  induction rows with
  | nil => simp at h
  | cons row' rest ih =>
      rw [rowParticipants_cons]
      rcases List.mem_cons.1 h with h' | h'
      · subst h'; simp
      · have := ih h'
        simp [this.1, this.2]

theorem runPass_changed_new {t : Teams} {rows : List Interaction}
    (h : (runPass t rows).2 = true) :
    ∃ u ∈ rowParticipants rows,
      getTeam t u = none ∧ getTeam (runPass t rows).1 u ≠ none := by
  rcases commitLoop_changed_new h with hb | ⟨u, hu, h1, h2⟩
  · simp at hb
  · rcases keys_foldl_origin t rows [] u hu with h' | ⟨row, hrow, g, hg⟩
    · simp at h'
    · rcases (voteOf_target hg).1 with he | he
      · exact ⟨u, he ▸ (mem_rowParticipants hrow).1, h1, h2⟩
      · exact ⟨u, he ▸ (mem_rowParticipants hrow).2, h1, h2⟩

/-! ### Fuel lemmas for the fixpoint loop -/

theorem infer_teams_of_fixed {t : Teams} {rows : List Interaction}
    (h : (runPass t rows).2 = false) :
    ∀ fuel, infer_teams fuel rows t = t := by
  intro fuel
  cases fuel with
  | zero => rfl
  | succ fuel => simp [infer_teams, h, runPass_fst_of_not_changed h]

theorem infer_teams_mono {u : String} {f : Faction}
    (rows : List Interaction) :
    ∀ (fuel : Nat) (t : Teams), getTeam t u = some f →
      getTeam (infer_teams fuel rows t) u = some f := by
  intro fuel
  induction fuel with
  | zero => exact fun t h => h
  | succ fuel ih =>
      intro t h
      by_cases hch : (runPass t rows).2 = true <;>
        simp [infer_teams, hch, ih _ (runPass_mono rows h), runPass_mono rows h]

theorem infer_teams_add (rows : List Interaction) :
    ∀ (a b : Nat) (t : Teams),
      infer_teams (a + b) rows t = infer_teams b rows (infer_teams a rows t) := by
  intro a
  induction a with
  | zero => intro b t; simp [infer_teams]
  | succ a ih =>
      intro b t
      have hsucc : a + 1 + b = (a + b) + 1 := by omega
      rw [hsucc]
      by_cases hch : (runPass t rows).2 = true
      · simp only [infer_teams, hch, if_pos, if_true]
        exact ih b (runPass t rows).1
      · have hf : (runPass t rows).2 = false := by
          rcases hb : (runPass t rows).2 with _ | _
          · rfl
          · exact absurd hb hch
        simp [infer_teams, hf, runPass_fst_of_not_changed hf,
          infer_teams_of_fixed hf b]

theorem foldl_evStep_of_no_votes {t : Teams} :
    ∀ (l : List Interaction), (∀ row ∈ l, voteOf t row = none) →
      ∀ ev : Evidence, l.foldl (evStep t) ev = ev := by
  intro l
  induction l with
  | nil => intro _ ev; rfl
  | cons row rest ih =>
      intro h ev
      rw [List.foldl_cons, evStep, h row (List.mem_cons_self _ _)]
      exact ih (fun r hr => h r (List.mem_cons_of_mem _ hr)) ev

theorem runPass_of_no_votes {t : Teams} {rows : List Interaction}
    (h : ∀ row ∈ rows, voteOf t row = none) : runPass t rows = (t, false) := by
  rw [runPass, collectEvidence, foldl_evStep_of_no_votes rows h []]
  rfl

/-- Reaching the fixpoint: if at most `fuel` participants of the
interaction rows are still unlabeled, then after `fuel` passes the state
is a fixpoint — one more pass commits nothing. -/
theorem infer_teams_reaches_fixpoint (rows : List Interaction) :
    ∀ (fuel : Nat) (t : Teams),
      (rowParticipants rows \ (t.map Prod.fst).toFinset).card ≤ fuel →
      (runPass (infer_teams fuel rows t) rows).2 = false := by
  intro fuel
  induction fuel with
  | zero =>
      intro t h
      have hsub : rowParticipants rows ⊆ (t.map Prod.fst).toFinset := by
        intro x hx
        by_contra hxk
        have hmem : x ∈ rowParticipants rows \ (t.map Prod.fst).toFinset :=
          Finset.mem_sdiff.2 ⟨hx, hxk⟩
        have hpos := Finset.card_pos.2 ⟨x, hmem⟩
        omega
      have hall : ∀ row ∈ rows, voteOf t row = none := by
        intro row hrow
        have h1 : row.1 ∈ t.map Prod.fst :=
          List.mem_toFinset.1 (hsub (mem_rowParticipants hrow).1)
        have h2 : row.2 ∈ t.map Prod.fst :=
          List.mem_toFinset.1 (hsub (mem_rowParticipants hrow).2)
        rcases hgt1 : getTeam t row.1 with _ | f1
        · exact absurd ((getTeam_none_iff _ _).1 hgt1) (by simp [h1])
        · rcases hgt2 : getTeam t row.2 with _ | f2
          · exact absurd ((getTeam_none_iff _ _).1 hgt2) (by simp [h2])
          · unfold voteOf; rw [hgt1, hgt2]
      show (runPass (infer_teams 0 rows t) rows).2 = false
      rw [show infer_teams 0 rows t = t from rfl, runPass_of_no_votes hall]
  | succ fuel ih =>
      intro t h
      by_cases hch : (runPass t rows).2 = true
      · have hstep : infer_teams (fuel + 1) rows t =
            infer_teams fuel rows (runPass t rows).1 := by
          simp [infer_teams, hch]
        rw [hstep]
        apply ih
        obtain ⟨u, hup, hu0, hu1⟩ := runPass_changed_new hch
        have hsub : rowParticipants rows \ ((runPass t rows).1.map Prod.fst).toFinset ⊆
            rowParticipants rows \ (t.map Prod.fst).toFinset := by
          intro x hx
          rcases Finset.mem_sdiff.1 hx with ⟨hx1, hx2⟩
          refine Finset.mem_sdiff.2 ⟨hx1, fun hxk => hx2 ?_⟩
          have hxl : x ∈ t.map Prod.fst := List.mem_toFinset.1 hxk
          rcases hg : getTeam t x with _ | f
          · exact absurd ((getTeam_none_iff _ _).1 hg) (by simp [hxl])
          · have := runPass_mono rows hg
            rw [List.mem_toFinset]
            by_contra hxn
            rw [(getTeam_none_iff _ _).2 hxn] at this
            exact Option.noConfusion this
        have hnotmem : u ∉ rowParticipants rows \ ((runPass t rows).1.map Prod.fst).toFinset := by
          intro hmem
          rcases Finset.mem_sdiff.1 hmem with ⟨_, hk⟩
          rcases hg : getTeam (runPass t rows).1 u with _ | f
          · exact hu1 hg
          · exact hk (List.mem_toFinset.2 (by
              by_contra hxn
              rw [(getTeam_none_iff _ _).2 hxn] at hg
              exact Option.noConfusion hg))
        have hmem : u ∈ rowParticipants rows \ (t.map Prod.fst).toFinset :=
          Finset.mem_sdiff.2 ⟨hup, fun hk =>
            by rw [getTeam_none_iff] at hu0; exact hu0 (List.mem_toFinset.1 hk)⟩
        have hss : rowParticipants rows \ ((runPass t rows).1.map Prod.fst).toFinset ⊂
            rowParticipants rows \ (t.map Prod.fst).toFinset :=
          (Finset.ssubset_iff_of_subset hsub).2 ⟨u, hmem, hnotmem⟩
        have := Finset.card_lt_card hss
        omega
      · have hf : (runPass t rows).2 = false := by
          rcases hb : (runPass t rows).2 with _ | _
          · rfl
          · exact absurd hb hch
        have heq : infer_teams (fuel + 1) rows t = t := by
          simp [infer_teams, hf, runPass_fst_of_not_changed hf]
        rw [heq, hf]

theorem passIter_zero (rows : List Interaction) (seed : Teams) :
    passIter rows seed 0 = seed := rfl

theorem passIter_succ (rows : List Interaction) (seed : Teams) (k : Nat) :
    passIter rows seed (k + 1) = (runPass (passIter rows seed k) rows).1 :=
  Function.iterate_succ_apply' _ _ _

theorem infer_teams_eq_passIter (rows : List Interaction) :
    ∀ (fuel : Nat) (seed : Teams),
      ∃ k, infer_teams fuel rows seed = passIter rows seed k := by
  intro fuel
  induction fuel with
  | zero => intro seed; exact ⟨0, rfl⟩
  | succ fuel ih =>
      intro seed
      by_cases hch : (runPass seed rows).2 = true
      · obtain ⟨k, hk⟩ := ih (runPass seed rows).1
        refine ⟨k + 1, ?_⟩
        have hit : passIter rows seed (k + 1) = passIter rows (runPass seed rows).1 k := by
          rw [passIter, passIter, Function.iterate_succ_apply]
        rw [hit, ← hk]
        simp [infer_teams, hch]
      · have hf : (runPass seed rows).2 = false := by
          rcases hb : (runPass seed rows).2 with _ | _
          · rfl
          · exact absurd hb hch
        refine ⟨1, ?_⟩
        have h1 : passIter rows seed 1 = (runPass seed rows).1 := by
          rw [passIter, Function.iterate_one]
        rw [h1]
        simp [infer_teams, hf]

/-! ### The simultaneous-commit view of one pass -/

theorem getTeam_commitList_of_not_mem (entries : Evidence) (u : String)
    (h : u ∉ entries.map Prod.fst) :
    getTeam (entries.filterMap fun e =>
      (commitDecision e.2.1 e.2.2).map fun f => (e.1, f)) u = none := by
  induction entries with
  | nil => rfl
  | cons e rest ih =>
      obtain ⟨v, c⟩ := e
      have hvu : ¬ v = u := fun hv => h (by simp [hv])
      have hrest : u ∉ rest.map Prod.fst := fun hr => h (by simp [hr])
      rcases hd : commitDecision c.1 c.2 with _ | fd <;>
        simp [List.filterMap_cons, hd, getTeam, hvu, ih hrest]

theorem getTeam_commitList (entries : Evidence) (u : String)
    (hn : (entries.map Prod.fst).Nodup) :
    getTeam (entries.filterMap fun e =>
        (commitDecision e.2.1 e.2.2).map fun f => (e.1, f)) u =
      match evLookup entries u with
      | some c => commitDecision c.1 c.2
      | none => none := by
  induction entries with
  | nil => rfl
  | cons e rest ih =>
      obtain ⟨v, c⟩ := e
      have hvrest : v ∉ rest.map Prod.fst := (List.nodup_cons.1 hn).1
      have hn' : (rest.map Prod.fst).Nodup := (List.nodup_cons.1 hn).2
      rcases hd : commitDecision c.1 c.2 with _ | fd
      · by_cases hvu : v = u
        · subst hvu
          rw [List.filterMap_cons]
          simp only [hd, Option.map_none']
          rw [getTeam_commitList_of_not_mem rest v hvrest]
          simp [evLookup, hd]
        · rw [List.filterMap_cons]
          simp only [hd, Option.map_none']
          rw [ih hn']
          simp [evLookup, hvu]
      · by_cases hvu : v = u
        · subst hvu
          rw [List.filterMap_cons]
          simp only [hd, Option.map_some']
          simp [getTeam, evLookup, hd]
        · rw [List.filterMap_cons]
          simp only [hd, Option.map_some']
          rw [getTeam]
          simp only [if_neg hvu]
          rw [ih hn']
          simp [evLookup, hvu]

theorem runPass_eq_simulPass (t : Teams) (rows : List Interaction) (u : String) :
    getTeam (runPass t rows).1 u = getTeam (simulPass t rows) u := by
  rw [runPass_getTeam, simulPass]
  rcases hc : getTeam t u with _ | f
  · rw [getTeam_append_of_none _ hc,
      getTeam_commitList _ _ (collectEvidence_keys_nodup t rows),
      evLookup_collectEvidence]
    by_cases hz : tallyCount t rows u .Reindeer = 0 ∧ tallyCount t rows u .Penguin = 0
    · rw [if_pos hz, hz.1, hz.2]; rfl
    · rw [if_neg hz]
  · rw [getTeam_append_of_some _ hc]

theorem evLookup_eq_some_mem {ev : Evidence} {u : String} {c : Nat × Nat}
    (h : evLookup ev u = some c) : (u, c) ∈ ev := by
  induction ev with
  | nil => simp [evLookup] at h
  | cons e rest ih =>
      obtain ⟨v, d⟩ := e
      by_cases hvu : v = u
      · rw [evLookup, if_pos hvu] at h
        injection h with h'
        subst hvu
        subst h'
        exact List.mem_cons_self _ _
      · rw [evLookup, if_neg hvu] at h
        exact List.mem_cons_of_mem _ (ih h)

theorem evLookup_of_mem {ev : Evidence} {u : String} {c : Nat × Nat}
    (hn : (ev.map Prod.fst).Nodup) (h : (u, c) ∈ ev) :
    evLookup ev u = some c := by
  induction ev with
  | nil => simp at h
  | cons e rest ih =>
      obtain ⟨v, d⟩ := e
      have hvrest : v ∉ rest.map Prod.fst := (List.nodup_cons.1 hn).1
      have hn' : (rest.map Prod.fst).Nodup := (List.nodup_cons.1 hn).2
      rcases List.mem_cons.1 h with he | he
      · injection he with h1 h2
        rw [evLookup, if_pos h1.symm, h2]
      · have hvu : ¬ v = u := by
          intro hvu
          exact hvrest (by rw [hvu]; exact List.mem_map_of_mem Prod.fst he)
        rw [evLookup, if_neg hvu]
        exact ih hn' he

theorem evLookup_perm {ev₁ ev₂ : Evidence} (hperm : ev₁.Perm ev₂)
    (hn : (ev₁.map Prod.fst).Nodup) (u : String) :
    evLookup ev₁ u = evLookup ev₂ u := by
  have hn₂ : (ev₂.map Prod.fst).Nodup := ((hperm.map Prod.fst).nodup_iff).1 hn
  rcases h1 : evLookup ev₁ u with _ | c
  · rw [evLookup_none_iff] at h1
    exact ((evLookup_none_iff ev₂ u).2
      (fun hm => h1 ((hperm.map Prod.fst).mem_iff.2 hm))).symm
  · exact (evLookup_of_mem hn₂ (hperm.mem_iff.1 (evLookup_eq_some_mem h1))).symm

theorem commitLoop_perm {ev₁ ev₂ : Evidence} (t : Teams) (b : Bool)
    (hperm : ev₁.Perm ev₂) (hn : (ev₁.map Prod.fst).Nodup)
    (h2 : ∀ e ∈ ev₁, getTeam t e.1 = none) (u : String) :
    getTeam (commitLoop ev₁ t b).1 u = getTeam (commitLoop ev₂ t b).1 u := by
  have hn₂ : (ev₂.map Prod.fst).Nodup := ((hperm.map Prod.fst).nodup_iff).1 hn
  have h2₂ : ∀ e ∈ ev₂, getTeam t e.1 = none := fun e he => h2 e (hperm.mem_iff.2 he)
  rw [commitLoop_getTeam hn h2 u, commitLoop_getTeam hn₂ h2₂ u,
    evLookup_perm hperm hn u]

/-! ### The dominance-only variant of the commit step -/

theorem commitDecision_eq_dom (r p : Nat) :
    commitDecision r p = commitDecisionDom r p := by
  unfold commitDecision commitDecisionDom
  split_ifs <;> first | rfl | (exfalso; omega)

theorem commitLoopDom_eq :
    ∀ (entries : Evidence) (cur : Teams) (b : Bool),
      commitLoopDom entries cur b = commitLoop entries cur b := by
  intro entries
  induction entries with
  | nil => intro cur b; rfl
  | cons e rest ih =>
      intro cur b
      obtain ⟨v, c⟩ := e
      rw [commitLoopDom, commitLoop, ← commitDecision_eq_dom]
      rcases hv : getTeam cur v with _ | fv
      · rcases hd : commitDecision c.1 c.2 with _ | fd <;> simp [hd, ih]
      · exact ih cur b

theorem runPassDom_eq (t : Teams) (rows : List Interaction) :
    runPassDom t rows = runPass t rows := by
  rw [runPassDom, runPass, commitLoopDom_eq]

theorem infer_teamsDom_eq :
    ∀ (fuel : Nat) (rows : List Interaction) (t : Teams),
      infer_teamsDom fuel rows t = infer_teams fuel rows t := by
  intro fuel
  induction fuel with
  | zero => intro rows t; rfl
  | succ fuel ih =>
      intro rows t
      rw [infer_teamsDom, infer_teams, runPassDom_eq, ih]

/-! ### Reporter lemmas -/

theorem dedupFirstAux_mem :
    ∀ (l seen : List String) (u : String),
      u ∈ dedupFirstAux l seen ↔ u ∈ l ∧ u ∉ seen := by
  intro l
  induction l with
  | nil => intro seen u; simp [dedupFirstAux]
  | cons x xs ih =>
      intro seen u
      by_cases hx : x ∈ seen
      · rw [dedupFirstAux, if_pos hx, ih]
        constructor
        · rintro ⟨h1, h2⟩; exact ⟨List.mem_cons_of_mem _ h1, h2⟩
        · rintro ⟨h1, h2⟩
          rcases List.mem_cons.1 h1 with h | h
          · exact absurd (h ▸ hx) h2
          · exact ⟨h, h2⟩
      · rw [dedupFirstAux, if_neg hx]
        constructor
        · intro h
          rcases List.mem_cons.1 h with h' | h'
          · subst h'; exact ⟨List.mem_cons_self _ _, hx⟩
          · have hm := (ih (x :: seen) u).1 h'
            exact ⟨List.mem_cons_of_mem _ hm.1,
              fun hs => hm.2 (List.mem_cons_of_mem _ hs)⟩
        · rintro ⟨h1, h2⟩
          by_cases hxu : u = x
          · exact List.mem_cons.2 (Or.inl hxu)
          · rcases List.mem_cons.1 h1 with h' | h'
            · exact absurd h' hxu
            · refine List.mem_cons.2 (Or.inr ((ih (x :: seen) u).2 ⟨h', ?_⟩))
              intro hs
              rcases List.mem_cons.1 hs with h'' | h''
              · exact hxu h''
              · exact h2 h''

theorem dedupFirstAux_nodup :
    ∀ (l seen : List String), (dedupFirstAux l seen).Nodup := by
  intro l
  induction l with
  | nil => intro seen; simp [dedupFirstAux]
  | cons x xs ih =>
      intro seen
      by_cases hx : x ∈ seen
      · rw [dedupFirstAux, if_pos hx]; exact ih seen
      · rw [dedupFirstAux, if_neg hx]
        refine List.nodup_cons.2 ⟨?_, ih (x :: seen)⟩
        intro hmem
        exact ((dedupFirstAux_mem xs (x :: seen) x).1 hmem).2 (List.mem_cons_self _ _)

theorem userList_mem (rows : List Interaction) (u : String) :
    u ∈ userList rows ↔ u ∈ rows.map Prod.fst ∨ u ∈ rows.map Prod.snd := by
  rw [userList, dedupFirst, dedupFirstAux_mem]
  simp

theorem userList_nodup (rows : List Interaction) : (userList rows).Nodup :=
  dedupFirstAux_nodup _ _

theorem outCount_pos_iff (rows : List Interaction) (u : String) :
    0 < outCount rows u ↔ u ∈ rows.map Prod.fst := by
  induction rows with
  | nil => simp [outCount]
  | cons row rest ih =>
      by_cases h : row.1 = u
      · simp [outCount, h]
      · have h' : ¬ u = row.1 := fun he => h he.symm
        simp [outCount, h, h', ih]

theorem inCount_pos_iff (rows : List Interaction) (u : String) :
    0 < inCount rows u ↔ u ∈ rows.map Prod.snd := by
  induction rows with
  | nil => simp [inCount]
  | cons row rest ih =>
      by_cases h : row.2 = u
      · simp [inCount, h]
      · have h' : ¬ u = row.2 := fun he => h he.symm
        simp [inCount, h, h', ih]

theorem report_mem (rows : List Interaction) (t : Teams)
    (u : String) (a b : Nat) (f : Faction) :
    (⟨u, a, b, f⟩ : ReportRow) ∈ report rows t ↔
      (u ∈ rows.map Prod.fst ∨ u ∈ rows.map Prod.snd) ∧ getTeam t u = some f ∧
        a = outCount rows u ∧ b = inCount rows u := by
  rw [report, List.mem_filterMap]
  constructor
  · rintro ⟨w, hw, hgw⟩
    rcases hg : getTeam t w with _ | fw
    · rw [hg] at hgw; simp at hgw
    · rw [hg] at hgw
      simp only [Option.map_some'] at hgw
      injection hgw with hgw
      rw [ReportRow.mk.injEq] at hgw
      obtain ⟨h1, h2, h3, h4⟩ := hgw
      subst h1
      subst h4
      exact ⟨(userList_mem rows w).1 hw, hg, h2.symm, h3.symm⟩
  · rintro ⟨hu, hg, ha, hb⟩
    subst ha
    subst hb
    refine ⟨u, (userList_mem rows u).2 hu, ?_⟩
    rw [hg]
    rfl

theorem filterMap_report_ids_sub (rows : List Interaction) (t : Teams) :
    ∀ (l : List String) (x : String),
      x ∈ (l.filterMap fun u => (getTeam t u).map fun f =>
        (⟨u, outCount rows u, inCount rows u, f⟩ : ReportRow)).map ReportRow.id →
      x ∈ l := by
  intro l
  induction l with
  | nil => intro x hx; simp at hx
  | cons y ys ih =>
      intro x hx
      rcases hg : getTeam t y with _ | f
      · rw [List.filterMap_cons] at hx
        simp only [hg, Option.map_none'] at hx
        exact List.mem_cons_of_mem _ (ih x hx)
      · rw [List.filterMap_cons] at hx
        simp only [hg, Option.map_some'] at hx
        rw [List.map_cons] at hx
        rcases List.mem_cons.1 hx with h | h
        · exact List.mem_cons.2 (Or.inl h)
        · exact List.mem_cons_of_mem _ (ih x h)

theorem report_ids_nodup (rows : List Interaction) (t : Teams) :
    ((report rows t).map ReportRow.id).Nodup := by
  rw [report]
  have key : ∀ l : List String, l.Nodup →
      ((l.filterMap fun u => (getTeam t u).map fun f =>
        (⟨u, outCount rows u, inCount rows u, f⟩ : ReportRow)).map ReportRow.id).Nodup := by
    intro l
    induction l with
    | nil => intro _; simp
    | cons x xs ih =>
        intro hn
        rcases hg : getTeam t x with _ | f
        · rw [List.filterMap_cons]
          simp only [hg, Option.map_none']
          exact ih (List.nodup_cons.1 hn).2
        · rw [List.filterMap_cons]
          simp only [hg, Option.map_some']
          rw [List.map_cons]
          refine List.nodup_cons.2 ⟨?_, ih (List.nodup_cons.1 hn).2⟩
          intro hmem
          exact (List.nodup_cons.1 hn).1 (filterMap_report_ids_sub rows t xs x hmem)
  exact key (userList rows) (userList_nodup rows)

/-! ### The claims -/

/-- C1: in each commit pass, for every unlabeled participant whose
evidence tally is `(countA, countB)` — here FactionA is Reindeer and
FactionB is Penguin — the engine commits FactionA exactly when
`countA > 2*countB` and `countA > 0` (and symmetrically FactionB), with
the dominance rule evaluated before the one-sidedness rule; in particular
a tally of `(7, 3)` commits FactionA, `(5, 3)` commits nothing, and
`(0, 0)` commits nothing. -/
theorem c1_commit_rule (t : Teams) (rows : List Interaction) (u : String)
    (hu : getTeam t u = none) :
    (getTeam (runPass t rows).1 u = some .Reindeer ↔
        tallyCount t rows u .Reindeer > 2 * tallyCount t rows u .Penguin ∧
          tallyCount t rows u .Reindeer > 0) ∧
    (getTeam (runPass t rows).1 u = some .Penguin ↔
        tallyCount t rows u .Penguin > 2 * tallyCount t rows u .Reindeer ∧
          tallyCount t rows u .Penguin > 0) ∧
    commitDecision 7 3 = some .Reindeer ∧
    commitDecision 5 3 = none ∧
    commitDecision 0 0 = none := by
  have hchar := runPass_getTeam t rows u
  rw [hu] at hchar
  refine ⟨?_, ?_, by decide, by decide, by decide⟩
  · rw [hchar, commitDecision_reindeer_iff]
    constructor <;> intro h <;> exact ⟨by omega, by omega⟩
  · rw [hchar, commitDecision_penguin_iff]
    constructor <;> intro h <;> exact ⟨by omega, by omega⟩

/-- Witness for C1: in the one-sided spec scenario, `Z` is unlabeled and
the pass commits `Z` to Penguin, its tally being `(0, 3)`. -/
theorem c1_commit_rule_witness :
    getTeam (runPass oneSeed oneRows).1 "Z" = some Faction.Penguin :=
  ((c1_commit_rule oneSeed oneRows "Z" (by decide)).2.1).2 (by decide)

/-- C2: labels are write-once: a label survives any single pass, the
labeled set after each pass contains the one after the previous pass, the
result of the run is a superset of the seed mapping, and every seed
participant keeps its seed label regardless of interaction content. -/
theorem c2_labels_write_once (rows : List Interaction) (seed : Teams)
    (u : String) (f : Faction) :
    (∀ t : Teams, getTeam t u = some f → getTeam (runPass t rows).1 u = some f) ∧
    (∀ k : Nat, getTeam (passIter rows seed k) u = some f →
      getTeam (passIter rows seed (k + 1)) u = some f) ∧
    (∀ fuel : Nat, getTeam seed u = some f →
      getTeam (infer_teams fuel rows seed) u = some f) := by
  refine ⟨fun t h => runPass_mono rows h, fun k h => ?_,
    fun fuel h => infer_teams_mono rows fuel seed h⟩
  rw [passIter_succ]
  exact runPass_mono rows h

/-- Witness for C2: the seed label of `X` survives a full run. -/
theorem c2_labels_write_once_witness :
    getTeam (infer_teams 3 oneRows oneSeed) "X" = some Faction.Reindeer :=
  (c2_labels_write_once oneRows oneSeed "X" Faction.Reindeer).2.2 3 (by decide)

/-- C3: evidence rules: an interaction with exactly one labeled endpoint
gives the unlabeled endpoint exactly one vote toward the opposite faction;
an interaction with both or neither endpoint labeled contributes nothing;
and repeated interactions each contribute an independent vote, tallies
adding up over the whole interaction list. -/
theorem c3_evidence_rules (t : Teams) (att vic u : String) (f g : Faction)
    (rows rows' : List Interaction) (n : Nat) :
    (getTeam t att = some f → getTeam t vic = none →
      voteOf t (att, vic) = some (vic, opposite f) ∧
        tallyCount t [(att, vic)] vic (opposite f) = 1) ∧
    (getTeam t vic = some f → getTeam t att = none →
      voteOf t (att, vic) = some (att, opposite f) ∧
        tallyCount t [(att, vic)] att (opposite f) = 1) ∧
    (getTeam t att = some f → getTeam t vic = some g →
      voteOf t (att, vic) = none) ∧
    (getTeam t att = none → getTeam t vic = none →
      voteOf t (att, vic) = none) ∧
    (tallyCount t (rows ++ rows') u g =
      tallyCount t rows u g + tallyCount t rows' u g) ∧
    (tallyCount t (List.replicate n (att, vic)) u g =
      n * tallyCount t [(att, vic)] u g) := by
  refine ⟨?_, ?_, ?_, ?_, ?_, ?_⟩
  · intro h1 h2
    have hv : voteOf t (att, vic) = some (vic, opposite f) := by
      unfold voteOf
      rw [show (att, vic).1 = att from rfl, show (att, vic).2 = vic from rfl, h1, h2]
    exact ⟨hv, by simp [tallyCount, hv]⟩
  · intro h1 h2
    have hv : voteOf t (att, vic) = some (att, opposite f) := by
      unfold voteOf
      rw [show (att, vic).1 = att from rfl, show (att, vic).2 = vic from rfl, h1, h2]
    exact ⟨hv, by simp [tallyCount, hv]⟩
  · intro h1 h2
    unfold voteOf
    rw [show (att, vic).1 = att from rfl, show (att, vic).2 = vic from rfl, h1, h2]
  · intro h1 h2
    unfold voteOf
    rw [show (att, vic).1 = att from rfl, show (att, vic).2 = vic from rfl, h1, h2]
  · induction rows with
    | nil => simp [tallyCount]
    | cons row rest ih => simp [tallyCount, ih]; omega
  · induction n with
    | zero => simp [tallyCount]
    | succ n ih =>
        rw [List.replicate_succ]
        by_cases hif : voteOf t (att, vic) = some (u, g) <;>
          (simp [tallyCount, hif, ih, Nat.succ_mul]; try omega)

/-- Witness for C3: with `x` labeled Reindeer and `z` unlabeled, the
interaction `(x, z)` is one vote for `z` toward Penguin. -/
theorem c3_evidence_rules_witness :
    voteOf zSeed ("z", "q") = some ("q", opposite Faction.Reindeer) ∧
    tallyCount zSeed [("z", "q")] "q" (opposite Faction.Reindeer) = 1 :=
  (c3_evidence_rules zSeed "z" "q" "q" Faction.Reindeer Faction.Penguin
    [] [] 0).1 (by decide) (by decide)

theorem commitDecision_none_of_inBand {r p : Nat} (hb : inBand r p) :
    commitDecision r p = none := by
  unfold inBand at hb
  unfold commitDecision
  split_ifs <;> first | rfl | (exfalso; omega)

/-- C4: conservatism: a pass commits nothing for an unlabeled participant
whose tally is tied or inside the non-dominant band, and a participant
whose tally is in that band at every pass stays unlabeled for the whole
run. -/
theorem c4_conservatism (rows : List Interaction) (seed : Teams) (u : String)
    (hu : getTeam seed u = none)
    (hband : ∀ k, inBand
      (tallyCount (passIter rows seed k) rows u .Reindeer)
      (tallyCount (passIter rows seed k) rows u .Penguin)) :
    (∀ t : Teams, getTeam t u = none →
      inBand (tallyCount t rows u .Reindeer) (tallyCount t rows u .Penguin) →
      getTeam (runPass t rows).1 u = none) ∧
    (∀ fuel : Nat, getTeam (infer_teams fuel rows seed) u = none) := by
  have hstep : ∀ t : Teams, getTeam t u = none →
      inBand (tallyCount t rows u .Reindeer) (tallyCount t rows u .Penguin) →
      getTeam (runPass t rows).1 u = none := by
    intro t ht hb
    have hchar := runPass_getTeam t rows u
    rw [ht] at hchar
    rw [hchar]
    exact commitDecision_none_of_inBand hb
  refine ⟨hstep, fun fuel => ?_⟩
  obtain ⟨k, hk⟩ := infer_teams_eq_passIter rows fuel seed
  rw [hk]
  have hall : ∀ k, getTeam (passIter rows seed k) u = none := by
    intro k
    induction k with
    | zero => exact hu
    | succ k ih =>
        rw [passIter_succ]
        exact hstep _ ih (hband k)
  exact hall k

/-- Witness for C4: in the tied spec scenario, `Z` tallies `(2, 2)` at
every pass and stays unlabeled. -/
theorem c4_conservatism_witness :
    getTeam (infer_teams 4 demoRows demoSeed) "Z" = none := by
  have hfix : (fun s => (runPass s demoRows).1) demoSeed = demoSeed := by decide
  have hiter : ∀ k, passIter demoRows demoSeed k = demoSeed :=
    fun k => @Function.iterate_fixed _ (fun s => (runPass s demoRows).1) demoSeed hfix k
  refine (c4_conservatism demoRows demoSeed "Z" (by decide) ?_).2 4
  intro k
  rw [hiter k]
  decide

/-- C5: one evidence snapshot per pass: each pass's tally is computed
from the label state as it stood at the start of the pass, every commit is
decided from that single tally, and the sequential commit loop is
extensionally equal to committing all matching participants
simultaneously; permuting the commit order does not change the result. -/
theorem c5_snapshot_pass (t : Teams) (rows : List Interaction) :
    (∀ u : String, getTeam (runPass t rows).1 u = getTeam (simulPass t rows) u) ∧
    (∀ (ev₁ ev₂ : Evidence) (b : Bool) (u : String),
      ev₁.Perm ev₂ → (ev₁.map Prod.fst).Nodup →
      (∀ e ∈ ev₁, getTeam t e.1 = none) →
      getTeam (commitLoop ev₁ t b).1 u = getTeam (commitLoop ev₂ t b).1 u) :=
  ⟨fun u => runPass_eq_simulPass t rows u,
   fun _ _ b u hperm hn h2 => commitLoop_perm t b hperm hn h2 u⟩

/-- Witness for C5: committing two evidence entries in either order gives
the same labels. -/
theorem c5_snapshot_pass_witness :
    getTeam (commitLoop [("z", 3, 0), ("w", 0, 3)] [] false).1 "z" =
      getTeam (commitLoop [("w", 0, 3), ("z", 3, 0)] [] false).1 "z" :=
  (c5_snapshot_pass [] []).2 [("z", 3, 0), ("w", 0, 3)]
    [("w", 0, 3), ("z", 3, 0)] false "z" (by decide) (by decide)
    (by intro e he; rfl)

/-- C6: termination: with fuel equal to the participant count `P` the
fixpoint is already reached — the next pass commits no new labels — and
any larger fuel gives the same label state, so the `while changed` loop
stops within `P` passes. -/
theorem c6_termination (rows : List Interaction) (seed : Teams) :
    (runPass (infer_teams (numParticipants rows seed) rows seed) rows).2 = false ∧
    (∀ fuel : Nat, numParticipants rows seed ≤ fuel →
      infer_teams fuel rows seed =
        infer_teams (numParticipants rows seed) rows seed) := by
  have hm : (rowParticipants rows \ (seed.map Prod.fst).toFinset).card ≤
      numParticipants rows seed := by
    apply Finset.card_le_card
    intro x hx
    exact Finset.mem_union.2 (Or.inl (Finset.mem_sdiff.1 hx).1)
  have hfix := infer_teams_reaches_fixpoint rows (numParticipants rows seed) seed hm
  refine ⟨hfix, fun fuel hle => ?_⟩
  obtain ⟨k, hk⟩ := Nat.exists_eq_add_of_le hle
  rw [hk, infer_teams_add]
  exact infer_teams_of_fixed hfix k

/-- Witness for C6: the one-sided scenario has 2 interaction participants
and 1 seed, and fuel 5 ≥ P gives the same result as fuel P. -/
theorem c6_termination_witness :
    infer_teams 5 oneRows oneSeed =
      infer_teams (numParticipants oneRows oneSeed) oneRows oneSeed :=
  (c6_termination oneRows oneSeed).2 5 (by decide)

/-- C7: the reporter's output has exactly one record
`{id, outgoingCount, incomingCount, faction}` for every participant that
appears as subject or object of some interaction and whose label resolved,
with the counts being the number of interactions with it as subject
resp. object; unlabeled participants are excluded. -/
theorem c7_reporter_contract (rows : List Interaction) (t : Teams) :
    (∀ (u : String) (a b : Nat) (f : Faction),
      (⟨u, a, b, f⟩ : ReportRow) ∈ report rows t ↔
        (u ∈ rows.map Prod.fst ∨ u ∈ rows.map Prod.snd) ∧
          getTeam t u = some f ∧ a = outCount rows u ∧ b = inCount rows u) ∧
    ((report rows t).map ReportRow.id).Nodup :=
  ⟨fun u a b f => report_mem rows t u a b f, report_ids_nodup rows t⟩

/-- C8 counterexample: the participant `z` is seeded and its label
resolves, but both of its interaction counts are zero, and it does not
appear in the reporter output — contradicting the claim that a seeded
participant with a resolved label appears even when both counts are
zero. -/
theorem c8_counterexample :
    getTeam zSeed "z" = some Faction.Reindeer ∧
    outCount abRows "z" = 0 ∧ inCount abRows "z" = 0 ∧
    "z" ∉ (report abRows zSeed).map ReportRow.id := by
  refine ⟨by decide, by decide, by decide, by decide⟩

/-- C8 (amended): a participant with zero interactions of one kind still
appears, with that count recorded as zero, whenever the other count is
nonzero and its label resolved; a labeled participant whose counts are
both zero (for example a seeded participant appearing in no interaction)
is excluded from the output. -/
theorem c8_zero_count_row (rows : List Interaction) (t : Teams) (u : String)
    (f : Faction) (hf : getTeam t u = some f) :
    (0 < outCount rows u ∨ 0 < inCount rows u →
      (⟨u, outCount rows u, inCount rows u, f⟩ : ReportRow) ∈ report rows t) ∧
    (outCount rows u = 0 → inCount rows u = 0 →
      u ∉ (report rows t).map ReportRow.id) := by
  constructor
  · intro h
    refine (report_mem rows t u _ _ f).2 ⟨?_, hf, rfl, rfl⟩
    rcases h with h | h
    · exact Or.inl ((outCount_pos_iff rows u).1 h)
    · exact Or.inr ((inCount_pos_iff rows u).1 h)
  · intro h1 h2 hmem
    have hu : u ∈ userList rows := by
      rw [report] at hmem
      exact filterMap_report_ids_sub rows t (userList rows) u hmem
    rcases (userList_mem rows u).1 hu with h | h
    · rw [← outCount_pos_iff] at h
      omega
    · rw [← inCount_pos_iff] at h
      omega

/-- Witness for C8 (amended): `b` is labeled, has zero outgoing and one
incoming interaction, and appears in the report with a zero count. -/
theorem c8_zero_count_row_witness :
    (⟨"b", 0, 1, Faction.Penguin⟩ : ReportRow) ∈ report abRows bSeed :=
  (c8_zero_count_row abRows bSeed "b" Faction.Penguin (by decide)).1
    (Or.inr (by decide))

/-- C9: self-interactions are accepted and contribute no vote to any
participant's tally, whether or not the participant is labeled. -/
theorem c9_self_interactions (t : Teams) (u v : String) (f : Faction)
    (rows : List Interaction) :
    voteOf t (u, u) = none ∧
    tallyCount t ((u, u) :: rows) v f = tallyCount t rows v f := by
  have hv : voteOf t (u, u) = none := by
    unfold voteOf
    rcases h : getTeam t u with _ | g <;> simp [h]
  exact ⟨hv, by simp [tallyCount, hv]⟩

/-- C10: the one-sidedness branches of the commit step are unreachable:
`commitDecision` equals its dominance-only variant on every tally; when
one count is zero and the other positive the dominance branch itself
commits the positive faction; and the whole engine is extensionally equal
to the variant whose commit step has only the two dominance branches. -/
theorem c10_one_sided_unreachable :
    (∀ r p : Nat, commitDecision r p = commitDecisionDom r p) ∧
    (∀ r : Nat, commitDecisionDom (r + 1) 0 = some Faction.Reindeer ∧
      commitDecisionDom 0 (r + 1) = some Faction.Penguin) ∧
    (∀ (fuel : Nat) (rows : List Interaction) (t : Teams),
      infer_teamsDom fuel rows t = infer_teams fuel rows t) := by
  refine ⟨commitDecision_eq_dom, fun r => ⟨?_, ?_⟩, infer_teamsDom_eq⟩
  · unfold commitDecisionDom
    rw [if_pos (by omega)]
  · unfold commitDecisionDom
    rw [if_neg (by omega), if_pos (by omega)]

end Snowball
